import Mathlib

/-!
# Verification of the `zero-compress` WASM acceleration core (`src/wasm/accel.c`)

Shallow embedding of the four byte-buffer primitives:

* `fast_crc32`        — checksum (software table path, plus the SSE4.2 path)
* `fast_memcmp`       — three-way comparison with a 64-bit word fast path
* `find_pattern`      — leftmost substring search
* `calculate_entropy` — Shannon entropy estimator

Buffers are modelled as `List Nat` of byte values (each `< 256` where the C
type `uint8_t` guarantees it).  Machine words are `Nat` with explicit masks
and shifts; `size_t` on the wasm32 target is 32 bits wide, which surfaces as
`length < 2^32` hypotheses.  Word loads at `a + i` are little-endian (the
WebAssembly memory model), i.e. byte `j` of a group carries weight `256^j`.
The `double` arithmetic of the entropy estimator is modelled over `ℝ`.
-/

/-! ## Checksum: `fast_crc32` -/

/-- The lookup table that appears literally in the source's software path:
only indices 0–4 are initialized (`0x00000000, 0x77073096, 0xEE0E612C,
0x990951BA, 0x2D02EF8D`); in C, all remaining elements of the
partially-initialized array are zero. -/
def crc_table_code (i : Nat) : Nat :=
  if i = 0 then 0x00000000
  else if i = 1 then 0x77073096
  else if i = 2 then 0xEE0E612C
  else if i = 3 then 0x990951BA
  else if i = 4 then 0x2D02EF8D
  else 0

/-- One step of the software loop:
`crc = crc_table[(crc ^ data[i]) & 0xFF] ^ (crc >> 8)`. -/
def crc_step_code (crc b : Nat) : Nat :=
  crc_table_code ((crc ^^^ b) &&& 0xFF) ^^^ (crc >>> 8)

/-- `fast_crc32`, software path: start from `0xFFFFFFFF`, fold the table
step over the buffer, complement at the end (`crc ^ 0xFFFFFFFF`). -/
def fast_crc32 (data : List Nat) : Nat :=
  (data.foldl crc_step_code 0xFFFFFFFF) ^^^ 0xFFFFFFFF

/-- One bit of the reference reflected CRC-32 with polynomial `0xEDB88320`. -/
def crc32_bit (c : Nat) : Nat :=
  if c % 2 = 1 then 0xEDB88320 ^^^ (c / 2) else c / 2

/-- Entry `i` of the standard 256-entry CRC-32 table: eight bit-steps of the
reflected polynomial applied to `i`. -/
def crc32_table_ref (i : Nat) : Nat := crc32_bit^[8] i

/-- One byte-step of the reference table-driven CRC-32. -/
def crc32_step_ref (crc b : Nat) : Nat :=
  crc32_table_ref ((crc ^^^ b) &&& 0xFF) ^^^ (crc >>> 8)

/-- Reference table-driven CRC-32 (init `0xFFFFFFFF`, final complement),
built from the complete standard table. -/
def crc32_ref (data : List Nat) : Nat :=
  (data.foldl crc32_step_ref 0xFFFFFFFF) ^^^ 0xFFFFFFFF

/-- One invocation of `__builtin_ia32_crc32qi` (the `#ifdef __SSE4_2__`
path): the CRC32-C instruction's byte update — XOR the byte into the low
bits, then eight bit-steps of the reflected Castagnoli polynomial
`0x82F63B78`. -/
def crc32c_byte (crc b : Nat) : Nat :=
  (fun c => if c % 2 = 1 then 0x82F63B78 ^^^ (c / 2) else c / 2)^[8] (crc ^^^ (b &&& 0xFF))

/-- `fast_crc32`, hardware (`__SSE4_2__`) path. -/
def fast_crc32_hw (data : List Nat) : Nat :=
  (data.foldl crc32c_byte 0xFFFFFFFF) ^^^ 0xFFFFFFFF

/-! ## Comparator: `fast_memcmp` -/

/-- Little-endian packing of a byte list into an integer, as done both by the
wasm32 `uint64_t` loads in `fast_memcmp` and by the explicit
`pattern |= byte << (i * 8)` loops in `find_pattern`: byte `j` has weight
`256 ^ j`. -/
def bytesLE : List Nat → Nat
  | [] => 0
  | b :: rest => b + 256 * bytesLE rest

/-- The trailing per-byte loop of `fast_memcmp` (`for (; i < len; i++)`):
compare `len` bytes one at a time.  Reading past the end of a buffer is
undefined behaviour in the C source; the catch-all returns 0 and every
theorem below assumes buffers hold at least `len` valid bytes. -/
def memcmp_tail : List Nat → List Nat → Nat → Int
  | x :: xs, y :: ys, len + 1 =>
    if x = y then memcmp_tail xs ys len
    else if x < y then -1 else 1
  | _, _, _ => 0

/-- `fast_memcmp`: while `i + 8 <= len`, load 8-byte groups as little-endian
words and compare them as integers (`va < vb ? -1 : 1`); finish the
remainder byte by byte. -/
def fast_memcmp : List Nat → List Nat → Nat → Int
  | a, b, len + 8 =>
    let va := bytesLE (a.take 8)
    let vb := bytesLE (b.take 8)
    if va = vb then fast_memcmp (a.drop 8) (b.drop 8) len
    else if va < vb then -1 else 1
  | a, b, len => memcmp_tail a b len

/-- The naive reference scan the spec defines the comparator by: from index
0, return at the first differing index according to unsigned byte order;
`0` (equal) if no index below `len` differs. -/
def ref_compare : List Nat → List Nat → Nat → Int
  | x :: xs, y :: ys, len + 1 =>
    if x = y then ref_compare xs ys len
    else if x < y then -1 else 1
  | _, _, _ => 0

/-! ## Pattern search: `find_pattern` -/

/-- The scanning loop `for (i = 0; i <= hay_len - needle_len; i++)` of
`find_pattern`: try `fuel` consecutive offsets starting at `i`, returning
the first one satisfying `p`. -/
def scanFrom (p : Nat → Bool) : Nat → Nat → Option Nat
  | _, 0 => none
  | i, fuel + 1 => if p i then some i else scanFrom p (i + 1) fuel

/-- `find_pattern`: `(size_t)-1` (modelled as `none`) for an empty or
oversized needle; otherwise scan offsets `0 .. hay_len - needle_len`.  For
needles of at most 8 bytes both needle and window are packed little-endian
into a `uint64_t` and compared for equality; longer needles delegate to
`fast_memcmp`. -/
def find_pattern (hay needle : List Nat) : Option Nat :=
  if needle.length = 0 ∨ hay.length < needle.length then none
  else if needle.length ≤ 8 then
    scanFrom (fun i => bytesLE ((hay.drop i).take needle.length) == bytesLE needle)
      0 (hay.length - needle.length + 1)
  else
    scanFrom (fun i => fast_memcmp (hay.drop i) needle needle.length == 0)
      0 (hay.length - needle.length + 1)

/-- The needle occurs at offset `i`: the `needle.length` bytes of `hay`
starting at `i` coincide with `needle`. -/
def matchAt (hay needle : List Nat) (i : Nat) : Prop :=
  (hay.drop i).take needle.length = needle

instance (hay needle : List Nat) (i : Nat) : Decidable (matchAt hay needle i) := by
  unfold matchAt; infer_instance

/-! ## Entropy: `calculate_entropy` -/

/-- A bucket of the frequency histogram: the source counts with `uint32_t`
counters, so the stored value is the occurrence count modulo `2^32`. -/
def count32 (data : List Nat) (v : Nat) : Nat :=
  (data.count v) % 4294967296

/-- `calculate_entropy` over exact reals (idealizing the C `double`
arithmetic): 0 for the empty buffer by early return, otherwise
`entropy -= p * log2 p` over the 256 buckets with nonzero count, where
`p = counts[i] / length`. -/
noncomputable def calculate_entropy (data : List Nat) : ℝ :=
  if data.length = 0 then 0
  else ∑ v ∈ Finset.range 256,
    if 0 < count32 data v then
      -(((count32 data v : ℝ) / data.length) *
         Real.logb 2 ((count32 data v : ℝ) / data.length))
    else 0

/-- The spec's formula, verbatim: `-Σ p_v · log2 p_v` over byte values with
positive empirical probability `p_v = count v / length`. -/
noncomputable def entropy_spec (data : List Nat) : ℝ :=
  ∑ v ∈ Finset.range 256,
    if 0 < data.count v then
      -(((data.count v : ℝ) / data.length) *
         Real.logb 2 ((data.count v : ℝ) / data.length))
    else 0

/-! ## Helper lemmas: little-endian packing -/

/-- Little-endian packing is injective on equal-length lists of bytes. -/
theorem bytesLE_inj : ∀ {xs ys : List Nat}, xs.length = ys.length →
    (∀ x ∈ xs, x < 256) → (∀ y ∈ ys, y < 256) →
    bytesLE xs = bytesLE ys → xs = ys
  | [], [], _, _, _, _ => rfl
  | [], _ :: _, hlen, _, _, _ => by simp at hlen
  | _ :: _, [], hlen, _, _, _ => by simp at hlen
  | x :: xs, y :: ys, hlen, hx, hy, heq => by
    simp only [bytesLE] at heq
    have hx0 : x < 256 := hx x (List.mem_cons_self ..)
    have hy0 : y < 256 := hy y (List.mem_cons_self ..)
    have hhead : x = y ∧ bytesLE xs = bytesLE ys := by omega
    have htail := bytesLE_inj (by simpa using hlen)
      (fun a ha => hx a (List.mem_cons_of_mem _ ha))
      (fun a ha => hy a (List.mem_cons_of_mem _ ha)) hhead.2
    rw [hhead.1, htail]

/-! ## Helper lemmas: the comparator -/

theorem memcmp_tail_nil_left (b : List Nat) (len : Nat) :
    memcmp_tail [] b len = 0 := by
  cases b <;> cases len <;> rfl

theorem memcmp_tail_nil_right (a : List Nat) (len : Nat) :
    memcmp_tail a [] len = 0 := by
  cases a <;> cases len <;> rfl

theorem memcmp_tail_zero (a b : List Nat) : memcmp_tail a b 0 = 0 := by
  cases a <;> cases b <;> rfl

theorem memcmp_tail_cons (x y : Nat) (xs ys : List Nat) (len : Nat) :
    memcmp_tail (x :: xs) (y :: ys) (len + 1) =
      if x = y then memcmp_tail xs ys len else if x < y then -1 else 1 := rfl

/-- The per-byte loop reports 0 exactly when the first `len` bytes agree. -/
theorem memcmp_tail_zero_iff (a b : List Nat) (len : Nat)
    (ha : len ≤ a.length) (hb : len ≤ b.length) :
    memcmp_tail a b len = 0 ↔ a.take len = b.take len := by
  induction a generalizing b len with
  | nil =>
    have hz : len = 0 := by simpa using ha
    subst hz
    simp [memcmp_tail_zero]
  | cons x xs ih =>
    cases b with
    | nil =>
      have hz : len = 0 := by simpa using hb
      subst hz
      simp [memcmp_tail_zero]
    | cons y ys =>
      cases len with
      | zero => simp [memcmp_tail_zero]
      | succ n =>
        rw [memcmp_tail_cons, List.take_succ_cons, List.take_succ_cons]
        by_cases hxy : x = y
        · subst hxy
          rw [if_pos rfl,
            ih ys n (by simpa using ha) (by simpa using hb)]
          simp
        · rw [if_neg hxy]
          constructor
          · intro h
            split at h <;> simp at h
          · intro h
            exact absurd (List.cons.injEq .. ▸ h).1 hxy

/-- The per-byte loop is antisymmetric. -/
theorem memcmp_tail_mirror (a b : List Nat) (len : Nat) :
    memcmp_tail b a len = -memcmp_tail a b len := by
  induction a generalizing b len with
  | nil => simp [memcmp_tail_nil_left, memcmp_tail_nil_right]
  | cons x xs ih =>
    cases b with
    | nil => simp [memcmp_tail_nil_left, memcmp_tail_nil_right]
    | cons y ys =>
      cases len with
      | zero => simp [memcmp_tail_zero]
      | succ n =>
        rw [memcmp_tail_cons, memcmp_tail_cons]
        rcases Nat.lt_trichotomy x y with h | h | h
        · have h1 : ¬ y = x := by omega
          have h2 : ¬ y < x := by omega
          have h3 : ¬ x = y := by omega
          rw [if_neg h1, if_neg h2, if_neg h3, if_pos h]
          decide
        · rw [if_pos h.symm, if_pos h]
          exact ih ys n
        · have h1 : ¬ y = x := by omega
          have h3 : ¬ x = y := by omega
          have h4 : ¬ x < y := by omega
          rw [if_neg h1, if_pos h, if_neg h3, if_neg h4]

/-- Unfolding `fast_memcmp` below the word width: only the byte loop runs. -/
theorem fast_memcmp_small (a b : List Nat) (len : Nat) (h : len < 8) :
    fast_memcmp a b len = memcmp_tail a b len := by
  interval_cases len <;> rfl

/-- Unfolding one 8-byte group comparison of `fast_memcmp`. -/
theorem fast_memcmp_chunk (a b : List Nat) (m : Nat) :
    fast_memcmp a b (m + 8) =
      if bytesLE (a.take 8) = bytesLE (b.take 8) then
        fast_memcmp (a.drop 8) (b.drop 8) m
      else if bytesLE (a.take 8) < bytesLE (b.take 8) then -1 else 1 := rfl

/-- The comparator's equality verdict is exact: result 0 iff the first `len`
bytes coincide (word groups are only short-circuited on inequality). -/
theorem fast_memcmp_zero_iff (a b : List Nat) (len : Nat)
    (ha : len ≤ a.length) (hb : len ≤ b.length)
    (ba : ∀ x ∈ a, x < 256) (bb : ∀ x ∈ b, x < 256) :
    fast_memcmp a b len = 0 ↔ a.take len = b.take len := by
  induction len using Nat.strong_induction_on generalizing a b with
  | _ len ih =>
    rcases Nat.lt_or_ge len 8 with h8 | h8
    · rw [fast_memcmp_small a b len h8]
      exact memcmp_tail_zero_iff a b len ha hb
    · obtain ⟨m, rfl⟩ : ∃ m, len = m + 8 := ⟨len - 8, by omega⟩
      rw [fast_memcmp_chunk]
      have la : (a.take 8).length = 8 := by
        rw [List.length_take]; omega
      have lb : (b.take 8).length = 8 := by
        rw [List.length_take]; omega
      have hsplit_a : a.take (m + 8) = a.take 8 ++ (a.drop 8).take m := by
        rw [Nat.add_comm m 8, List.take_add]
      have hsplit_b : b.take (m + 8) = b.take 8 ++ (b.drop 8).take m := by
        rw [Nat.add_comm m 8, List.take_add]
      by_cases hv : bytesLE (a.take 8) = bytesLE (b.take 8)
      · have htake : a.take 8 = b.take 8 :=
          bytesLE_inj (la.trans lb.symm)
            (fun x hx => ba x (List.take_subset 8 a hx))
            (fun x hx => bb x (List.take_subset 8 b hx)) hv
        rw [if_pos hv]
        rw [ih m (by omega) (a.drop 8) (b.drop 8)
          (by rw [List.length_drop]; omega)
          (by rw [List.length_drop]; omega)
          (fun x hx => ba x (List.drop_subset 8 a hx))
          (fun x hx => bb x (List.drop_subset 8 b hx))]
        rw [hsplit_a, hsplit_b, htake, List.append_right_inj]
      · rw [if_neg hv]
        have hne : a.take (m + 8) ≠ b.take (m + 8) := by
          intro hcon
          apply hv
          have h8a : (a.take (m + 8)).take 8 = a.take 8 := by
            rw [List.take_take]
            congr 1
            omega
          have h8b : (b.take (m + 8)).take 8 = b.take 8 := by
            rw [List.take_take]
            congr 1
            omega
          rw [← h8a, ← h8b, hcon]
        constructor
        · intro h
          split at h <;> simp at h
        · intro h
          exact absurd h hne

/-- `fast_memcmp` is antisymmetric, even on the (endian-broken) word path. -/
theorem fast_memcmp_mirror (a b : List Nat) (len : Nat) :
    fast_memcmp b a len = -fast_memcmp a b len := by
  induction len using Nat.strong_induction_on generalizing a b with
  | _ len ih =>
    rcases Nat.lt_or_ge len 8 with h8 | h8
    · rw [fast_memcmp_small a b len h8, fast_memcmp_small b a len h8]
      exact memcmp_tail_mirror a b len
    · obtain ⟨m, rfl⟩ : ∃ m, len = m + 8 := ⟨len - 8, by omega⟩
      rw [fast_memcmp_chunk, fast_memcmp_chunk]
      rcases Nat.lt_trichotomy (bytesLE (a.take 8)) (bytesLE (b.take 8))
        with h | h | h
      · have h1 : ¬ bytesLE (b.take 8) = bytesLE (a.take 8) := by omega
        have h2 : ¬ bytesLE (b.take 8) < bytesLE (a.take 8) := by omega
        have h3 : ¬ bytesLE (a.take 8) = bytesLE (b.take 8) := by omega
        rw [if_neg h1, if_neg h2, if_neg h3, if_pos h]
        decide
      · rw [if_pos h.symm, if_pos h]
        exact ih m (by omega) (a.drop 8) (b.drop 8)
      · have h1 : ¬ bytesLE (b.take 8) = bytesLE (a.take 8) := by omega
        have h3 : ¬ bytesLE (a.take 8) = bytesLE (b.take 8) := by omega
        have h4 : ¬ bytesLE (a.take 8) < bytesLE (b.take 8) := by omega
        rw [if_neg h1, if_pos h, if_neg h3, if_neg h4]

/-! ## Helper lemmas: the scanning loop -/

theorem scanFrom_some : ∀ (p : Nat → Bool) (s fuel i : Nat),
    scanFrom p s fuel = some i →
    p i = true ∧ s ≤ i ∧ i < s + fuel ∧
      ∀ j, s ≤ j → j < i → p j = false
  | p, s, 0, i, h => by simp [scanFrom] at h
  | p, s, fuel + 1, i, h => by
    rw [scanFrom] at h
    by_cases hp : p s = true
    · rw [if_pos hp] at h
      obtain rfl : s = i := by simpa using h
      exact ⟨hp, Nat.le_refl s, by omega, fun j h1 h2 => by omega⟩
    · rw [if_neg hp] at h
      obtain ⟨h1, h2, h3, h4⟩ := scanFrom_some p (s + 1) fuel i h
      refine ⟨h1, by omega, by omega, fun j hj1 hj2 => ?_⟩
      rcases Nat.eq_or_lt_of_le hj1 with rfl | hlt
      · simpa using hp
      · exact h4 j hlt hj2

theorem scanFrom_none : ∀ (p : Nat → Bool) (s fuel : Nat),
    scanFrom p s fuel = none →
    ∀ j, s ≤ j → j < s + fuel → p j = false
  | p, s, 0, _, j, h1, h2 => by omega
  | p, s, fuel + 1, h, j, h1, h2 => by
    rw [scanFrom] at h
    by_cases hp : p s = true
    · rw [if_pos hp] at h
      exact absurd h (by simp)
    · rw [if_neg hp] at h
      rcases Nat.eq_or_lt_of_le h1 with rfl | hlt
      · simpa using hp
      · exact scanFrom_none p (s + 1) fuel h j hlt (by omega)

/-! ## Helper lemmas: search windows -/

/-- A match (of a nonempty needle) can only start where the full needle fits. -/
theorem matchAt_le (hay needle : List Nat) (i : Nat) (hne : needle ≠ [])
    (h : matchAt hay needle i) : i + needle.length ≤ hay.length := by
  unfold matchAt at h
  have hlen := congrArg List.length h
  rw [List.length_take, List.length_drop] at hlen
  have hnl : 0 < needle.length := List.length_pos.mpr hne
  omega

/-- On the packed-integer path, the window test is exactly a match test
(packing is injective on equal-length byte lists). -/
theorem short_window_iff (hay needle : List Nat) (i : Nat)
    (hb : ∀ x ∈ hay, x < 256) (nb : ∀ x ∈ needle, x < 256)
    (hi : i + needle.length ≤ hay.length) :
    ((bytesLE ((hay.drop i).take needle.length) == bytesLE needle) = true ↔
      matchAt hay needle i) := by
  rw [beq_iff_eq]
  unfold matchAt
  constructor
  · intro h
    refine bytesLE_inj ?_ ?_ nb h
    · rw [List.length_take, List.length_drop]
      omega
    · exact fun x hx => hb x (List.drop_subset i hay (List.take_subset _ _ hx))
  · intro h
    rw [h]

/-- On the comparator path, the window test is exactly a match test
(the comparator's zero verdict is exact, by `fast_memcmp_zero_iff`). -/
theorem long_window_iff (hay needle : List Nat) (i : Nat)
    (hb : ∀ x ∈ hay, x < 256) (nb : ∀ x ∈ needle, x < 256)
    (hi : i + needle.length ≤ hay.length) :
    ((fast_memcmp (hay.drop i) needle needle.length == 0) = true ↔
      matchAt hay needle i) := by
  rw [beq_iff_eq]
  rw [fast_memcmp_zero_iff (hay.drop i) needle needle.length
    (by rw [List.length_drop]; omega) (Nat.le_refl _)
    (fun x hx => hb x (List.drop_subset i hay hx)) nb]
  rw [List.take_length]
  exact Iff.rfl

/-- The scanning loop run over offsets `0 .. hay.length - needle.length`
returns the leftmost match, for any window test equivalent to `matchAt`. -/
theorem scan_leftmost (hay needle : List Nat) (hne : needle ≠ [])
    (hlen : needle.length ≤ hay.length) (pred : Nat → Bool)
    (hpred : ∀ i, i + needle.length ≤ hay.length →
      (pred i = true ↔ matchAt hay needle i)) :
    (∀ i, scanFrom pred 0 (hay.length - needle.length + 1) = some i →
        matchAt hay needle i ∧ ∀ j, j < i → ¬ matchAt hay needle j) ∧
    (scanFrom pred 0 (hay.length - needle.length + 1) = none →
        ∀ i, ¬ matchAt hay needle i) := by
  constructor
  · intro i hsome
    obtain ⟨hp, _, hir, hmin⟩ := scanFrom_some _ 0 _ i hsome
    have hi : i + needle.length ≤ hay.length := by omega
    refine ⟨(hpred i hi).mp hp, fun j hj hmatch => ?_⟩
    have hjr : j + needle.length ≤ hay.length := by omega
    have hfalse := hmin j (by omega) hj
    rw [(hpred j hjr).mpr hmatch] at hfalse
    exact Bool.noConfusion hfalse
  · intro hnone i hmatch
    have hi := matchAt_le hay needle i hne hmatch
    have hfalse := scanFrom_none _ 0 _ hnone i (by omega) (by omega)
    rw [(hpred i hi).mpr hmatch] at hfalse
    exact Bool.noConfusion hfalse

/-! ## Helper lemmas: the entropy estimator -/

/-- A buffer of bytes distributes its length over the 256 histogram buckets. -/
theorem sum_count_eq_length (data : List Nat) (hb : ∀ x ∈ data, x < 256) :
    ∑ v ∈ Finset.range 256, data.count v = data.length := by
  induction data with
  | nil => simp
  | cons x l ih =>
    have hx : x < 256 := hb x (List.mem_cons_self ..)
    have ihl := ih (fun y hy => hb y (List.mem_cons_of_mem _ hy))
    simp only [List.count_cons, List.length_cons, beq_iff_eq]
    have hone : (∑ v ∈ Finset.range 256, if x = v then 1 else 0) = 1 := by
      rw [Finset.sum_ite_eq]
      simp [Finset.mem_range, hx]
    rw [Finset.sum_add_distrib, ihl, hone]

/-- The empirical probabilities over the 256 buckets sum to 1. -/
theorem sum_p_eq_one (data : List Nat) (hb : ∀ x ∈ data, x < 256)
    (hne : data.length ≠ 0) :
    ∑ v ∈ Finset.range 256, ((data.count v : ℝ) / data.length) = 1 := by
  rw [← Finset.sum_div]
  rw [show (∑ v ∈ Finset.range 256, ((data.count v : ℝ))) = (data.length : ℝ) by
    rw [← Nat.cast_sum, sum_count_eq_length data hb]]
  exact div_self (Nat.cast_ne_zero.mpr hne)

/-- Gibbs-type bound for a single entropy term against the uniform
distribution over 256 values: `-(p·log₂ p) ≤ (1/256 - p)/ln 2 + 8·p`. -/
theorem neg_mul_logb_le (p : ℝ) (hp : 0 < p) (_hp1 : p ≤ 1) :
    -(p * Real.logb 2 p) ≤ (1 / 256 - p) / Real.log 2 + 8 * p := by
  have hlog2 : 0 < Real.log 2 := Real.log_pos (by norm_num)
  have hx : (0 : ℝ) < 1 / (256 * p) := by positivity
  have h1 : Real.log (1 / (256 * p)) ≤ 1 / (256 * p) - 1 :=
    Real.log_le_sub_one_of_pos hx
  have h2 : p * Real.log (1 / (256 * p)) ≤ 1 / 256 - p := by
    calc p * Real.log (1 / (256 * p)) ≤ p * (1 / (256 * p) - 1) :=
          mul_le_mul_of_nonneg_left h1 hp.le
      _ = 1 / 256 - p := by field_simp; ring
  have hsplit : Real.log (1 / (256 * p)) = -Real.log 256 - Real.log p := by
    rw [one_div, Real.log_inv, Real.log_mul (by norm_num) (ne_of_gt hp)]
    ring
  have h256 : Real.log 256 = 8 * Real.log 2 := by
    rw [show (256 : ℝ) = 2 ^ (8 : ℕ) by norm_num, Real.log_pow]
    push_cast
    ring
  have key : -(p * Real.log p) ≤ 1 / 256 - p + 8 * p * Real.log 2 := by
    have heq : p * Real.log (1 / (256 * p)) =
        -(p * Real.log p) - 8 * p * Real.log 2 := by
      rw [hsplit, h256]
      ring
    linarith
  have lhs_eq : -(p * Real.logb 2 p) = (-(p * Real.log p)) / Real.log 2 := by
    rw [Real.logb]
    ring
  have rhs_eq : (1 / 256 - p) / Real.log 2 + 8 * p =
      (1 / 256 - p + 8 * p * Real.log 2) / Real.log 2 := by
    field_simp
    ring
  rw [lhs_eq, rhs_eq]
  exact (div_le_div_iff_of_pos_right hlog2).mpr key

/-- Each entropy term is nonnegative for `0 ≤ p ≤ 1`. -/
theorem neg_mul_logb_nonneg (p : ℝ) (hp : 0 ≤ p) (hp1 : p ≤ 1) :
    0 ≤ -(p * Real.logb 2 p) := by
  have h : Real.logb 2 p ≤ 0 := Real.logb_nonpos (by norm_num) hp hp1
  have h2 : 0 ≤ p * -Real.logb 2 p := mul_nonneg hp (by linarith)
  linarith [h2, (by ring : p * -Real.logb 2 p = -(p * Real.logb 2 p))]

/-! ## Claim theorems -/

set_option maxRecDepth 100000 in
/-- C1: the checksum does NOT implement standard CRC-32.  The source's
software table is a 5-entry placeholder (all other entries zero), so on the
standard test vector "123456789" the code returns `0xFFFFFFFF`, not the
required `0xCBF43926`; the correctly generated reference table does produce
`0xCBF43926`, and the `#ifdef __SSE4_2__` path computes CRC-32C
(`0xE3069283`) instead.  This refutes the claim on the code as written. -/
theorem fast_crc32_not_standard :
    fast_crc32 [0x31, 0x32, 0x33, 0x34, 0x35, 0x36, 0x37, 0x38, 0x39] =
      0xFFFFFFFF ∧
    fast_crc32 [0x31, 0x32, 0x33, 0x34, 0x35, 0x36, 0x37, 0x38, 0x39] ≠
      0xCBF43926 ∧
    crc32_ref [0x31, 0x32, 0x33, 0x34, 0x35, 0x36, 0x37, 0x38, 0x39] =
      0xCBF43926 ∧
    fast_crc32_hw [0x31, 0x32, 0x33, 0x34, 0x35, 0x36, 0x37, 0x38, 0x39] =
      0xE3069283 := by
  refine ⟨by decide, by decide, by decide, by decide⟩

/-- C2: the comparator does NOT agree with the byte-wise reference scan.
The 64-bit groups are loaded little-endian, so the integer comparison
weights the LAST byte of a group most heavily: on buffers differing in
bytes 0 and 1 of an 8-byte group the code answers `greater` where the
reference scan answers `less`. -/
theorem fast_memcmp_not_reference :
    fast_memcmp [0, 1, 0, 0, 0, 0, 0, 0] [1, 0, 0, 0, 0, 0, 0, 0] 8 = 1 ∧
    ref_compare [0, 1, 0, 0, 0, 0, 0, 0] [1, 0, 0, 0, 0, 0, 0, 0] 8 = -1 := by
  refine ⟨by decide, by decide⟩

/-- C3: for every haystack and nonempty needle of at most the haystack's
length (all bytes in range), `find_pattern` returns an offset exactly when
the needle occurs, and then the smallest matching offset; `none` is
returned exactly when the needle occurs nowhere.  Both the packed-integer
path (needle ≤ 8 bytes) and the comparator path are covered. -/
theorem find_pattern_leftmost (hay needle : List Nat)
    (hb : ∀ x ∈ hay, x < 256) (nb : ∀ x ∈ needle, x < 256)
    (hne : needle ≠ []) (hlen : needle.length ≤ hay.length) :
    (∀ i, find_pattern hay needle = some i →
        matchAt hay needle i ∧ ∀ j, j < i → ¬ matchAt hay needle j) ∧
    (find_pattern hay needle = none → ∀ i, ¬ matchAt hay needle i) := by
  have hnl : 0 < needle.length := List.length_pos.mpr hne
  unfold find_pattern
  rw [if_neg (by push_neg; constructor <;> omega)]
  by_cases h8 : needle.length ≤ 8
  · rw [if_pos h8]
    exact scan_leftmost hay needle hne hlen _
      (fun i hi => short_window_iff hay needle i hb nb hi)
  · rw [if_neg h8]
    exact scan_leftmost hay needle hne hlen _
      (fun i hi => long_window_iff hay needle i hb nb hi)

/-- C3 witness: on the haystack `[1,2,3,2]` and needle `[2]` the search
finds the leftmost occurrence (offset 1, not 3), instantiating the
leftmost-match theorem at a concrete input. -/
theorem find_pattern_leftmost_witness :
    matchAt [1, 2, 3, 2] [2] 1 ∧ ¬ matchAt [1, 2, 3, 2] [2] 0 := by
  have h := (find_pattern_leftmost [1, 2, 3, 2] [2]
    (by decide) (by decide) (by decide) (by decide)).1 1 (by decide)
  exact ⟨h.1, h.2 0 (by decide)⟩

/-- C4: an empty needle, or a needle strictly longer than the haystack,
makes `find_pattern` return the not-found sentinel. -/
theorem find_pattern_degenerate (hay needle : List Nat)
    (h : needle = [] ∨ hay.length < needle.length) :
    find_pattern hay needle = none := by
  unfold find_pattern
  rw [if_pos]
  rcases h with rfl | hlt
  · exact Or.inl rfl
  · exact Or.inr hlt

/-- C4 witness: both degenerate shapes at concrete inputs. -/
theorem find_pattern_degenerate_witness :
    find_pattern [1, 2] [] = none ∧ find_pattern [1, 2] [1, 2, 3] = none :=
  ⟨find_pattern_degenerate [1, 2] [] (Or.inl rfl),
   find_pattern_degenerate [1, 2] [1, 2, 3] (Or.inr (by decide))⟩

/-- C6: the checksum of the empty buffer is `0x00000000` on both the
software-table path and the hardware path (`~0xFFFFFFFF`). -/
theorem fast_crc32_empty :
    fast_crc32 [] = 0 ∧ fast_crc32_hw [] = 0 := by
  refine ⟨by decide, by decide⟩

/-- C7: the comparator is reflexive (`compare(a,a,len)` is equal) and
antisymmetric (swapping the arguments negates the three-way result,
so less and greater swap while equal is fixed), for lengths within the
buffers' valid bytes. -/
theorem fast_memcmp_refl_antisymm (a b : List Nat) (len : Nat)
    (_hla : len ≤ a.length) (_hlb : len ≤ b.length) :
    fast_memcmp a a len = 0 ∧
    fast_memcmp b a len = -fast_memcmp a b len := by
  have hrefl : fast_memcmp a a len = 0 := by
    have h := fast_memcmp_mirror a a len
    omega
  exact ⟨hrefl, fast_memcmp_mirror a b len⟩

/-- C7 witness: reflexivity and the mirror law at concrete buffers. -/
theorem fast_memcmp_refl_antisymm_witness :
    fast_memcmp [5, 6] [5, 6] 2 = 0 ∧
    fast_memcmp [7, 8] [5, 6] 2 = -fast_memcmp [5, 6] [7, 8] 2 :=
  fast_memcmp_refl_antisymm [5, 6] [7, 8] 2 (by decide) (by decide)

/-- C8: all four operations are pure functions of their inputs — repeated
calls on identical inputs give identical results (the embedding has no
state that could make two applications differ). -/
theorem accel_ops_deterministic (data a b hay needle : List Nat) (len : Nat) :
    fast_crc32 data = fast_crc32 data ∧
    fast_memcmp a b len = fast_memcmp a b len ∧
    find_pattern hay needle = find_pattern hay needle ∧
    calculate_entropy data = calculate_entropy data :=
  ⟨rfl, rfl, rfl, rfl⟩

/-- Prefix equality of lists is pointwise equality of `getD` reads. -/
theorem take_eq_iff_getD : ∀ (a b : List Nat) (len : Nat),
    len ≤ a.length → len ≤ b.length →
    (a.take len = b.take len ↔ ∀ i, i < len → a.getD i 0 = b.getD i 0)
  | _, _, 0, _, _ => by simp
  | x :: xs, y :: ys, len + 1, ha, hb => by
    simp only [List.take_succ_cons, List.cons.injEq]
    rw [take_eq_iff_getD xs ys len (by simpa using ha) (by simpa using hb)]
    constructor
    · rintro ⟨rfl, h⟩ i hi
      cases i with
      | zero => rfl
      | succ n => simpa using h n (by omega)
    · intro h
      refine ⟨by simpa using h 0 (by omega), fun i hi => ?_⟩
      simpa using h (i + 1) (by omega)
  | [], _, len + 1, ha, _ => by simp at ha
  | _ :: _, [], len + 1, _, hb => by simp at hb

/-- C9: the comparator's equality verdict is exact: result 0 holds iff the
buffers agree at every index below `len` — the little-endian word groups
can misorder, but they short-circuit only on inequality. -/
theorem fast_memcmp_eq_iff_pointwise (a b : List Nat) (len : Nat)
    (ha : len ≤ a.length) (hb : len ≤ b.length)
    (ba : ∀ x ∈ a, x < 256) (bb : ∀ x ∈ b, x < 256) :
    fast_memcmp a b len = 0 ↔ ∀ i, i < len → a.getD i 0 = b.getD i 0 := by
  rw [fast_memcmp_zero_iff a b len ha hb ba bb]
  exact take_eq_iff_getD a b len ha hb

/-- C9 witness: equality verdict at a concrete pair differing past `len`. -/
theorem fast_memcmp_eq_iff_pointwise_witness :
    fast_memcmp [9, 9, 7] [9, 9, 8] 2 = 0 ∧ (0:Nat) < 2 := by
  have h := fast_memcmp_eq_iff_pointwise [9, 9, 7] [9, 9, 8] 2
    (by decide) (by decide) (by decide) (by decide)
  exact ⟨h.mpr (by decide), by decide⟩

/-- C10: the histogram's `uint32_t` counters wrap modulo `2^32`; for every
buffer whose length is below `2^32` (all buffers addressable through a
32-bit `size_t`), each counter equals the true occurrence count of its
byte value. -/
theorem count32_exact (data : List Nat) (hlen : data.length < 4294967296)
    (v : Nat) : count32 data v = data.count v :=
  Nat.mod_eq_of_lt (lt_of_le_of_lt (List.count_le_length v data) hlen)

/-- C10 witness: the counter for value 7 on a small concrete buffer. -/
theorem count32_exact_witness : count32 [7, 3, 7] 7 = List.count 7 [7, 3, 7] :=
  count32_exact [7, 3, 7] (by decide) 7

/-- C5: on the wasm32 target (buffer length below `2^32`, bytes in range)
the entropy estimator computes exactly the spec's formula
`-Σ p_v · log₂ p_v` over byte values with positive empirical probability;
it returns 0 for the empty buffer by the early return, and the result
always lies in the closed interval `[0, 8]`. -/
theorem calculate_entropy_correct (data : List Nat)
    (hb : ∀ x ∈ data, x < 256) (hlen : data.length < 4294967296) :
    calculate_entropy data = entropy_spec data ∧
    calculate_entropy [] = 0 ∧
    0 ≤ calculate_entropy data ∧
    calculate_entropy data ≤ 8 := by
  have hc32 : ∀ v, count32 data v = data.count v := fun v =>
    Nat.mod_eq_of_lt (lt_of_le_of_lt (List.count_le_length v data) hlen)
  have hempty : calculate_entropy [] = 0 := by
    unfold calculate_entropy
    simp
  have heq : calculate_entropy data = entropy_spec data := by
    unfold calculate_entropy entropy_spec
    by_cases hnil : data.length = 0
    · rw [if_pos hnil]
      obtain rfl : data = [] := List.length_eq_zero.mp hnil
      simp
    · rw [if_neg hnil]
      exact Finset.sum_congr rfl (fun v _ => by rw [hc32 v])
  by_cases hnil : data.length = 0
  · obtain rfl : data = [] := List.length_eq_zero.mp hnil
    refine ⟨heq, hempty, ?_, ?_⟩
    · rw [hempty]
    · rw [hempty]
      norm_num
  · have hL : (0 : ℝ) < (data.length : ℝ) := by
      exact_mod_cast Nat.pos_of_ne_zero hnil
    have hterm_nonneg : ∀ v ∈ Finset.range 256,
        (0 : ℝ) ≤ if 0 < data.count v then
          -(((data.count v : ℝ) / data.length) *
             Real.logb 2 ((data.count v : ℝ) / data.length)) else 0 := by
      intro v _
      split
      · next hv =>
        apply neg_mul_logb_nonneg
        · positivity
        · rw [div_le_one hL]
          exact_mod_cast List.count_le_length v data
      · exact le_refl 0
    have hnonneg : 0 ≤ entropy_spec data := by
      unfold entropy_spec
      exact Finset.sum_nonneg hterm_nonneg
    have hlog2 : 0 < Real.log 2 := Real.log_pos (by norm_num)
    have hub : ∀ v ∈ Finset.range 256,
        (if 0 < data.count v then
          -(((data.count v : ℝ) / data.length) *
             Real.logb 2 ((data.count v : ℝ) / data.length)) else 0)
        ≤ (1 / 256 - (data.count v : ℝ) / data.length) / Real.log 2 +
            8 * ((data.count v : ℝ) / data.length) := by
      intro v _
      split
      · next hv =>
        apply neg_mul_logb_le
        · apply div_pos _ hL
          exact_mod_cast hv
        · rw [div_le_one hL]
          exact_mod_cast List.count_le_length v data
      · next hv =>
        have hz : data.count v = 0 := by omega
        simp only [hz, Nat.cast_zero, zero_div, sub_zero, mul_zero, add_zero]
        apply div_nonneg (by norm_num) hlog2.le
    have hle : entropy_spec data ≤ 8 := by
      have hp1 : ∑ v ∈ Finset.range 256,
          ((data.count v : ℝ) / data.length) = 1 := sum_p_eq_one data hb hnil
      unfold entropy_spec
      refine le_trans (Finset.sum_le_sum hub) ?_
      rw [Finset.sum_add_distrib, ← Finset.sum_div, Finset.sum_sub_distrib,
        hp1, ← Finset.mul_sum, hp1]
      rw [Finset.sum_const, Finset.card_range]
      norm_num
    exact ⟨heq, hempty, heq ▸ hnonneg, heq ▸ hle⟩

/-- C5 witness: the entropy facts instantiated on the concrete one-byte
buffer `[0]`. -/
theorem calculate_entropy_correct_witness :
    calculate_entropy [0] = entropy_spec [0] ∧
    calculate_entropy [] = 0 ∧
    0 ≤ calculate_entropy [0] ∧
    calculate_entropy [0] ≤ 8 :=
  calculate_entropy_correct [0] (by decide) (by decide)
